import Mathlib

/- Shallow embedding of the markdown compiler of the Mewax07/Markdown
   repository.  Strings are modelled as `List Char`; the JavaScript
   regexes of the source are translated to explicit character scans,
   documented where they are used.  The functional pipeline
   (`lexer` / `parseInline` / `parseTokensToAST`) lives in namespace `MD`,
   the class-based one (`Lexer` of lexer.ts) in namespace `CL`. -/

namespace MD

/-- JS `\s` on the ASCII range: space, tab, newline, carriage return,
vertical tab (11), form feed (12).  The repository's inputs are ASCII. -/
def jsWS (c : Char) : Bool :=
  c = ' ' || c = '\t' || c = '\n' || c = '\r' || c.toNat = 11 || c.toNat = 12

/-- `startsWithL p l` : does `l` start with `p`?  (JS `String.startsWith`.) -/
def startsWithL : List Char → List Char → Bool
  | [], _ => true
  | _ :: _, [] => false
  | p :: ps, c :: cs => p = c && startsWithL ps cs

def asStr (l : List Char) : String := String.mk l

/-- Drop leading JS whitespace. -/
def dropWS (l : List Char) : List Char := l.dropWhile jsWS

/-- JS `String.trim` (both ends). -/
def jsTrim (l : List Char) : List Char :=
  ((l.dropWhile jsWS).reverse.dropWhile jsWS).reverse

/-- JS `String.trimEnd`. -/
def jsTrimEnd (l : List Char) : List Char :=
  (l.reverse.dropWhile jsWS).reverse

/-- Split a char list at every occurrence of `sep` (JS `String.split`):
`splitOnSep '\n' "a\nb" = ["a", "b"]`, `splitOnSep '\n' "" = [""]`. -/
def splitOnSep (sep : Char) : List Char → List (List Char)
  | [] => [[]]
  | c :: cs =>
    match splitOnSep sep cs with
    | [] => [[]]
    | h :: t => if c = sep then [] :: h :: t else (c :: h) :: t

/-- Replace each `"\r\n"` by `"\n"` (the lexer's input normalisation). -/
def replCRLF : List Char → List Char
  | [] => []
  | '\r' :: '\n' :: rest => '\n' :: replCRLF rest
  | c :: rest => c :: replCRLF rest

/-- Join strings with `"\n"` (JS `Array.join("\n")`). -/
def joinNL (ss : List String) : String := String.intercalate "\n" ss

def joinLinesNL (ls : List (List Char)) : String :=
  String.intercalate "\n" (ls.map asStr)

/-- Inline AST of type.ts: TEXT / STRONG / EM / CODE / LINK / IMAGE.
`LINK.title` and `IMAGE.width`/`IMAGE.height` are the optional fields of
the source's interfaces; `parseInline` never populates them. -/
inductive InlineNode where
  | TEXT (value : String)
  | STRONG (children : List InlineNode)
  | EM (children : List InlineNode)
  | CODE (value : String)
  | LINK (href : String) (title : Option String) (children : List InlineNode)
  | IMAGE (src : String) (alt : String) (width : Option String) (height : Option String)

/-- Is a node a TEXT node? -/
def isText : InlineNode → Bool
  | .TEXT _ => true
  | _ => false

/-- The characters at which `parseInline`'s fallback stops.  The source's
regex `/(!\[|\[|`+"`"+`|\*\*|__|\*|_|!|\))/` is tested UNANCHORED on the
remaining input, and its single-character alternatives `!`, `[`, `` ` ``,
`*`, `_`, `)` subsume the multi-character ones, so the regex matches the
remainder iff the remainder contains one of those six characters. -/
def containsDelim (l : List Char) : Bool :=
  l.any (fun c => c = '!' || c = '[' || c = '`' || c = '*' || c = '_' || c = ')')

/-- `splitAtChar c l = (pre, suf)`: `pre` = chars before the first
occurrence of `c`, `suf` = the remainder starting at that occurrence
(`readUntil` with a one-character string pattern: `pre` is the returned
buffer and `suf` the un-consumed input). -/
def splitAtChar (c : Char) : List Char → List Char × List Char
  | [] => ([], [])
  | x :: xs =>
    if x = c then ([], x :: xs)
    else
      let p := splitAtChar c xs
      (x :: p.1, p.2)

/-- `readUntil` with a multi-character string pattern: stop as soon as the
remainder starts with `d`. -/
def splitAtStr (d : List Char) : List Char → List Char × List Char
  | [] => ([], [])
  | x :: xs =>
    if startsWithL d (x :: xs) then ([], x :: xs)
    else
      let p := splitAtStr d xs
      (x :: p.1, p.2)

/-- `if (peek() === c) consume(1)` -/
def dropLeadChar (c : Char) : List Char → List Char
  | [] => []
  | x :: xs => if x = c then xs else x :: xs

/-- `if (src.startsWith(delim, i)) consume(2)` for a 2-char delimiter -/
def dropLeadStr (d : List Char) (l : List Char) : List Char :=
  if startsWithL d l then l.drop d.length else l

/-- mergeAdjacentTextNodes of lexer.ts: the source folds left over the
list, appending each TEXT node's value onto a trailing TEXT accumulator.
This right-fold formulation merges the same maximal runs of adjacent
TEXT nodes, concatenating their values in the same left-to-right order. -/
def mergeAdjacentTextNodes : List InlineNode → List InlineNode
  | [] => []
  | .TEXT a :: rest =>
    match mergeAdjacentTextNodes rest with
    | .TEXT b :: r => .TEXT (a ++ b) :: r
    | r => .TEXT a :: r
  | n :: rest => n :: mergeAdjacentTextNodes rest

/-- The main loop of `parseInline` (lexer.ts).  The first argument is a
structural-recursion bound: every loop iteration consumes at least one
character and every nested `parseInline(text)` call receives a strictly
shorter string, so any bound exceeding the input length is exact fuel
(`piGo_irrel` below proves the bound irrelevant once large enough).
Branches, in source order: image, link, code span, strong, em, fallback. -/
def piGo : Nat → List Char → List InlineNode
  | 0, _ => []
  | _ + 1, [] => []
  | b + 1, c :: cs =>
    if c = '!' ∧ cs.head? = some '[' then
      -- `![` : i += 2; alt = readUntil("]"); optional "]"; then `(`?
      let p := splitAtChar ']' cs.tail
      let r2 := dropLeadChar ']' p.2
      if r2.head? = some '(' then
        let q := splitAtChar ')' r2.tail
        let r5 := dropLeadChar ')' q.2
        .IMAGE (asStr (jsTrim q.1)) (asStr p.1) none none :: piGo b r5
      else
        .TEXT (asStr ('!' :: '[' :: (p.1 ++ if r2.head? = some ']' then [']'] else []))) :: piGo b r2
    else if c = '[' then
      let p := splitAtChar ']' cs
      let r2 := dropLeadChar ']' p.2
      if r2.head? = some '(' then
        let q := splitAtChar ')' r2.tail
        let r5 := dropLeadChar ')' q.2
        .LINK (asStr (jsTrim q.1)) none (mergeAdjacentTextNodes (piGo b p.1)) :: piGo b r5
      else
        .TEXT (asStr ('[' :: (p.1 ++ if r2.head? = some ']' then [']'] else []))) :: piGo b r2
    else if c = '`' then
      let p := splitAtChar '`' cs
      .CODE (asStr p.1) :: piGo b (dropLeadChar '`' p.2)
    else if (c = '*' ∨ c = '_') ∧ cs.head? = some c then
      -- delim = "**" or "__"
      let p := splitAtStr [c, c] cs.tail
      .STRONG (mergeAdjacentTextNodes (piGo b p.1)) :: piGo b (dropLeadStr [c, c] p.2)
    else if c = '*' ∨ c = '_' then
      let p := splitAtChar c cs
      .EM (mergeAdjacentTextNodes (piGo b p.1)) :: piGo b (dropLeadChar c p.2)
    else if containsDelim (c :: cs) then
      -- fallback with a delimiter somewhere ahead: readUntil's unanchored
      -- regex test succeeds at once, txt = "", so one char is emitted
      .TEXT (asStr [c]) :: piGo b cs
    else
      -- no delimiter anywhere ahead: txt = the whole remainder
      [.TEXT (asStr (c :: cs))]

/-- parseInline on a char list: run the loop, then merge adjacent TEXT
nodes (the source's final `mergeAdjacentTextNodes(out)`). -/
def parseInlineL (l : List Char) : List InlineNode :=
  mergeAdjacentTextNodes (piGo (l.length + 1) l)

/-- parseInline of lexer.ts. -/
def parseInline (s : String) : List InlineNode := parseInlineL s.toList

/-! Block tokenizer (`lexer` of lexer.ts). -/

inductive FTokType where
  | HEADING | HR | UL_ITEM | OL_ITEM | BLOCKQUOTE | CODE_FENCE | PARAGRAPH | BLANK
  deriving DecidableEq

/-- Token of type.ts.  `depth` is a JS number: for headings it is the
integer hash count, for list items `indent / 2` with JS float division,
so it is modelled as a rational. -/
structure FToken where
  type : FTokType
  raw : String
  line : Nat
  depth : Option ℚ := none
  lang : Option String := none
  bullet : Option String := none
  deriving DecidableEq

/-- `^\s*$` -/
def isBlankL (l : List Char) : Bool := l.all jsWS

/-- Leading `'#'` run length. -/
def hashRun (l : List Char) : Nat := (l.takeWhile (· = '#')).length

/-- `^(#{1,6})\s+` : the greedy hash run must be 1–6 long and be followed by
a whitespace character (a run longer than 6 can never match, because the
character after any shorter prefix of the run is `'#'`, not whitespace). -/
def headCond (l : List Char) : Bool :=
  1 ≤ hashRun l && hashRun l ≤ 6 &&
    (match (l.drop (hashRun l)).head? with
     | some c => jsWS c
     | none => false)

/-- Heading capture `(.*)$` after `\s+`: the text after the whitespace run
that follows the hashes. -/
def headRaw (l : List Char) : List Char := dropWS (l.drop (hashRun l))

/-- ```` ^```(\S*)\s*$ ````: after the three backticks a run of non-space
characters (the language), then only whitespace to end of line. -/
def fenceCond (l : List Char) : Bool :=
  startsWithL ['`', '`', '`'] l &&
    ((l.drop 3).dropWhile (fun c => !jsWS c)).all jsWS

/-- Language capture of the fence: `h[1] || undefined`. -/
def fenceLang (l : List Char) : Option String :=
  let w := (l.drop 3).takeWhile (fun c => !jsWS c)
  if w = [] then none else some (asStr w)

/-- First alternative of the HR rule: `\*\s*\*\s*\*` followed by `\s*$` —
exactly three stars with optional whitespace between and after. -/
def starHR (l : List Char) : Bool :=
  match l with
  | '*' :: r1 =>
    match dropWS r1 with
    | '*' :: r3 =>
      match dropWS r3 with
      | '*' :: r5 => (dropWS r5).isEmpty && r5.all jsWS
      | _ => false
    | _ => false
  | _ => false

/-- `^(\*\s*\*\s*\*|-{3,}|_{3,})\s*$` -/
def isHRF (l : List Char) : Bool :=
  starHR l ||
    ((l.takeWhile (· = '-')).length ≥ 3 && (l.dropWhile (· = '-')).all jsWS) ||
    ((l.takeWhile (· = '_')).length ≥ 3 && (l.dropWhile (· = '_')).all jsWS)

/-- `^\s*> ?(.*)$` matches iff the first non-whitespace character is `>`. -/
def bqCond (l : List Char) : Bool := (dropWS l).head? = some '>'

/-- Blockquote capture: what follows the `>`, minus one optional literal
space (the regex' `" ?"` — a space, not `\s`). -/
def bqRaw (l : List Char) : List Char :=
  match dropWS l with
  | '>' :: r => (match r with
    | ' ' :: r2 => r2
    | _ => r)
  | _ => []

def leadWS (l : List Char) : Nat := (l.takeWhile jsWS).length

def isBullet (c : Char) : Bool := c = '-' || c = '+' || c = '*'

/-- `^(\s*)([-+*])\s+(.*)$` matchability: after the leading whitespace run
a bullet character followed by at least one whitespace character. -/
def ulCond (l : List Char) : Bool :=
  match l.drop (leadWS l) with
  | b :: w :: _ => isBullet b && jsWS w
  | _ => false

/-- Bullet capture. -/
def bulletOf (l : List Char) : Char := (l.drop (leadWS l)).headD ' '

/-- Content capture of a list item: `\s+` is greedy, so the text is what
follows the whole whitespace run after the bullet. -/
def ulRaw (l : List Char) : List Char := dropWS (l.drop (leadWS l + 1))

/-- `^(\s*)(\d+)\.\s+(.*)$` matchability. -/
def olCond (l : List Char) : Bool :=
  let r := l.drop (leadWS l)
  let d := r.takeWhile Char.isDigit
  decide (d ≠ []) &&
    (match r.drop d.length with
     | '.' :: w :: _ => jsWS w
     | _ => false)

def olRaw (l : List Char) : List Char :=
  let r := l.drop (leadWS l)
  let d := r.takeWhile Char.isDigit
  dropWS (r.drop (d.length + 1))

/-- The paragraph accumulation loop's break test.  It reuses the line
rules above except for fenced code, where it only tests `^```​` (any line
starting with three backticks breaks a paragraph, whether or not it is a
well-formed fence line), and blockquote, where it tests `^>\s?` (which
matches any line whose first character is `>`). -/
def paraBreak (l : List Char) : Bool :=
  isBlankL l || headCond l || startsWithL ['`', '`', '`'] l ||
    ulCond l || olCond l || l.head? = some '>' || isHRF l

/-- One iteration of `lexer`'s while loop: the token pushed for the line
at index `i` and the cursor position after it.  Branches in source
order: blank, fenced code, heading, horizontal rule, blockquote,
unordered item, ordered item, paragraph fallback. -/
def fLexStep (lines : List (List Char)) (i : Nat) : FToken × Nat :=
  let raw := lines.getD i []
  if isBlankL raw then
    ({ type := .BLANK, raw := asStr raw, line := i }, i + 1)
  else if fenceCond raw then
    let body := (lines.drop (i + 1)).takeWhile (fun l => !startsWithL ['`', '`', '`'] l)
    let found := body.length < (lines.drop (i + 1)).length
    ({ type := .CODE_FENCE, raw := joinLinesNL body, line := i, lang := fenceLang raw },
     if found then i + 1 + body.length + 1 else i + 1 + body.length)
  else if headCond raw then
    ({ type := .HEADING, raw := asStr (headRaw raw), line := i, depth := some (hashRun raw : ℚ) }, i + 1)
  else if isHRF raw then
    ({ type := .HR, raw := asStr raw, line := i }, i + 1)
  else if bqCond raw then
    ({ type := .BLOCKQUOTE, raw := asStr (bqRaw raw), line := i }, i + 1)
  else if ulCond raw then
    ({ type := .UL_ITEM, raw := asStr (ulRaw raw), line := i,
       depth := some ((leadWS raw : ℚ) / 2), bullet := some (asStr [bulletOf raw]) }, i + 1)
  else if olCond raw then
    ({ type := .OL_ITEM, raw := asStr (olRaw raw), line := i,
       depth := some ((leadWS raw : ℚ) / 2) }, i + 1)
  else
    let para := (lines.drop i).takeWhile (fun l => !paraBreak l)
    ({ type := .PARAGRAPH, raw := joinLinesNL para, line := i }, i + para.length)

/-- The while loop of `lexer`, with explicit fuel.  The loop does not
terminate on every input (see the C1 theorems): a line starting with
three backticks that is not a well-formed fence line makes the paragraph
fallback consume zero lines, so the cursor stays put; `none` models that
divergence (no fuel suffices). -/
def lexerAux : Nat → List (List Char) → Nat → Option (List FToken)
  | 0, _, _ => none
  | fuel + 1, lines, i =>
    if i < lines.length then
      let s := fLexStep lines i
      (lexerAux fuel lines s.2).map (s.1 :: ·)
    else
      some []

/-- `lexer` on a list of lines.  When every step advances the cursor the
loop runs at most `lines.length` iterations, so `lines.length + 1` fuel
is exact. -/
def lexerLines (lines : List (List Char)) : Option (List FToken) :=
  lexerAux (lines.length + 1) lines 0

/-- lexer of lexer.ts: normalise `\r\n` to `\n`, split on `\n`, scan. -/
def lexer (s : String) : Option (List FToken) :=
  lexerLines (splitOnSep '\n' (replCRLF s.toList))

/-! Tree builder (`parseTokensToAST` of parser.ts). -/

/-- Block AST of type.ts.  `HEADING.level` is `t.depth || 1`, a JS
number, hence rational. -/
inductive BlockNode where
  | HEADING (level : ℚ) (children : List InlineNode)
  | PARAGRAPH (children : List InlineNode)
  | UL (items : List BlockNode)
  | OL (items : List BlockNode)
  | BLOCKQUOTE (children : List BlockNode)
  | CODE (lang : Option String) (code : String)
  | HR

/-- JS `t.depth || 1`: `undefined` and `0` are falsy. -/
def orOne (d : Option ℚ) : ℚ :=
  match d with
  | some q => if q = 0 then 1 else q
  | none => 1

/-- The token-consuming loop of `parseTokensToAST`, with fuel peeled on
every recursive call so that the definition is structural and reduces.
The blockquote arm collects the maximal run of consecutive BLOCKQUOTE
tokens, joins their raw contents with newlines and re-runs the full
pipeline (`lexer`, then this builder) on the joined text; the list arms
collect the maximal run of same-type item tokens into one list node
whose items are flat paragraphs (parser.ts deliberately does not merge
nested depths — see its comment). -/
def pAux : Nat → List FToken → Option (List BlockNode)
  | 0, _ => none
  | _ + 1, [] => some []
  | fuel + 1, t :: ts =>
    if t.type = .BLANK then
      pAux fuel ts
    else if t.type = .HEADING then
      (pAux fuel ts).map (.HEADING (orOne t.depth) (parseInline t.raw) :: ·)
    else if t.type = .HR then
      (pAux fuel ts).map (.HR :: ·)
    else if t.type = .CODE_FENCE then
      (pAux fuel ts).map (.CODE t.lang t.raw :: ·)
    else if t.type = .BLOCKQUOTE then
      let run := (t :: ts).takeWhile (fun u => u.type = .BLOCKQUOTE)
      let rest := (t :: ts).dropWhile (fun u => u.type = .BLOCKQUOTE)
      (lexer (joinNL (run.map (·.raw)))).bind fun itoks =>
        (pAux fuel itoks).bind fun inner =>
          (pAux fuel rest).map (.BLOCKQUOTE inner :: ·)
    else if t.type = .UL_ITEM then
      let run := (t :: ts).takeWhile (fun u => u.type = .UL_ITEM)
      let rest := (t :: ts).dropWhile (fun u => u.type = .UL_ITEM)
      (pAux fuel rest).map (.UL (run.map (fun u => .PARAGRAPH (parseInline u.raw))) :: ·)
    else if t.type = .OL_ITEM then
      let run := (t :: ts).takeWhile (fun u => u.type = .OL_ITEM)
      let rest := (t :: ts).dropWhile (fun u => u.type = .OL_ITEM)
      (pAux fuel rest).map (.OL (run.map (fun u => .PARAGRAPH (parseInline u.raw))) :: ·)
    else if t.type = .PARAGRAPH then
      (pAux fuel ts).map (.PARAGRAPH (parseInline t.raw) :: ·)
    else
      pAux fuel ts

/-- Fuel budget for `pAux`: each blockquote re-parse level strips at
least one `>` from every quoted line, so the recursion depth is bounded
by the total raw length; the token-list walk is bounded by the list
length. -/
def pFuel (ts : List FToken) : Nat :=
  (ts.map (fun t => t.raw.length)).sum + ts.length + 2

/-- parseTokensToAST of parser.ts. -/
def parseTokensToAST (ts : List FToken) : Option (List BlockNode) :=
  pAux (pFuel ts) ts

/-- The tokenize-then-build pipeline of compiler.ts
(`compileMarkdownToHtml` before rendering). -/
def toAST (s : String) : Option (List BlockNode) :=
  (lexer s).bind parseTokensToAST

end MD

/-! The class-based `Lexer` of the second lexer.ts (token.ts enum). -/

namespace CL

open MD (jsWS jsTrim jsTrimEnd dropWS asStr startsWithL splitOnSep leadWS isBullet)

inductive CTokType where
  | HEADER | LIST_ITEM | HR | BLOCKQUOTE | CODE_FENCE | PARAGRAPH | BLANK
  | IMAGE | STRONG | EM | CODE | TEXT | NEWLINE | TABLE | LATEX | UNDERLINE | STRIKETHROUGH
  deriving DecidableEq

/-- Token of token.ts. -/
structure CToken where
  type : CTokType
  value : String
  level : Option Nat := none
  lang : Option String := none
  checked : Option Bool := none
  listType : Option String := none
  headers : Option (List String) := none
  rows : Option (List (List String)) := none
  align : Option (List String) := none
  deriving DecidableEq

/-- `^#{1,6}\s` (same greedy-run argument as for the functional lexer). -/
def isHeader (l : List Char) : Bool :=
  let k := (l.takeWhile (· = '#')).length
  1 ≤ k && k ≤ 6 &&
    (match (l.drop k).head? with
     | some c => jsWS c
     | none => false)

/-- parseHeader: `^(#{1,6})\s+(.+)$`.  `\s+` is greedy but `(.+)` needs at
least one character, so when everything after the hashes is whitespace
the match backtracks to leave exactly the last character; a lone
trailing whitespace character admits no match at all and the line falls
back to a TEXT token. -/
def parseHeader (l : List Char) : CToken :=
  let k := (l.takeWhile (· = '#')).length
  let rest := l.drop k
  let afterWS := rest.dropWhile jsWS
  if 1 ≤ k ∧ k ≤ 6 ∧ rest.head?.elim false jsWS = true ∧
      (afterWS ≠ [] ∨ 2 ≤ rest.length) then
    { type := .HEADER,
      value := asStr (if afterWS ≠ [] then afterWS else rest.drop (rest.length - 1)),
      level := some k }
  else
    { type := .TEXT, value := asStr l }

/-- `^([-_*])\1{2,}$` on the trimmed line: one of `-`, `_`, `*` repeated
at least three times, and nothing else. -/
def isHR (l : List Char) : Bool :=
  match jsTrim l with
  | c :: rest => (c = '-' || c = '_' || c = '*') && rest.length ≥ 2 && rest.all (· = c)
  | [] => false

/-- `^```​` -/
def isCodeFence (l : List Char) : Bool := startsWithL ['`', '`', '`'] l

/-- JS `\w` -/
def isWordChar (c : Char) : Bool := c.isAlphanum || c = '_'

/-- parseCodeFence: reads the language as the `\w+` run after the
backticks (`langMatch[1] || ""`), then accumulates `line + "\n"` for
every following line until one whose trim is exactly ```` ``` ````,
finally `trimEnd`s the accumulated text.  Returns the token and the
cursor position (the index of the closing fence when found, one past
the last line otherwise; `tokenize` then increments past it). -/
def parseCodeFence (lines : List (List Char)) (i : Nat) : CToken × Nat :=
  let line := lines.getD i []
  let lang := asStr ((line.drop 3).takeWhile isWordChar)
  let body := (lines.drop (i + 1)).takeWhile (fun l => jsTrim l ≠ ['`', '`', '`'])
  ({ type := .CODE_FENCE,
     value := asStr (jsTrimEnd (body.map (· ++ ['\n'])).flatten),
     lang := some lang },
   i + 1 + body.length)

/-- `^>\s` : first character `>`, second a whitespace character. -/
def isBlockquote (l : List Char) : Bool :=
  match l with
  | c :: d :: _ => c = '>' && jsWS d
  | _ => false

/-- parseBlockquote: `^(>+)\s?(.*)$` — level is the length of the leading
`>` run, content is what follows minus one optional whitespace
character.  When the line does not start with `>` (unreachable from the
dispatch) the source's fallback strips nothing and reports level 1. -/
def parseBlockquote (l : List Char) : CToken :=
  let run := l.takeWhile (· = '>')
  if run.length ≥ 1 then
    let rest := l.drop run.length
    { type := .BLOCKQUOTE,
      value := asStr (match rest with
        | c :: r2 => if jsWS c then r2 else rest
        | [] => []),
      level := some run.length }
  else
    { type := .BLOCKQUOTE, value := asStr l, level := some 1 }

/-- `^(\s*)[-*+]\s` : one whitespace character after the bullet. -/
def ulStart (l : List Char) : Bool :=
  match l.drop (leadWS l) with
  | b :: w :: _ => isBullet b && jsWS w
  | _ => false

/-- `^(\s*)\d+\.\s` -/
def olStart (l : List Char) : Bool :=
  let r := l.drop (leadWS l)
  let d := r.takeWhile Char.isDigit
  decide (d ≠ []) &&
    (match r.drop d.length with
     | '.' :: w :: _ => jsWS w
     | _ => false)

/-- isList: the checkbox pattern is subsumed by the plain bullet one. -/
def isList (l : List Char) : Bool := ulStart l || olStart l

/-- `^(\s*)[-*+]\s\[([ x])\]\s(.+)$` -/
def cbMatch (r : List Char) : Option (Bool × List Char) :=
  match r with
  | b :: w :: '[' :: m :: ']' :: w2 :: rest =>
    if isBullet b ∧ jsWS w ∧ (m = ' ' ∨ m = 'x') ∧ jsWS w2 ∧ rest ≠ [] then
      some (m = 'x', rest)
    else none
  | _ => none

/-- `^(\s*)[-*+]\s(.+)$` : exactly one whitespace after the bullet, then a
nonempty remainder (which keeps any further whitespace). -/
def ulMatch (r : List Char) : Option (List Char) :=
  match r with
  | b :: w :: rest => if isBullet b ∧ jsWS w ∧ rest ≠ [] then some rest else none
  | _ => none

/-- `^(\s*)\d+\.\s(.+)$` -/
def olMatch (r : List Char) : Option (List Char) :=
  let d := r.takeWhile Char.isDigit
  if d ≠ [] then
    match r.drop d.length with
    | '.' :: w :: rest => if jsWS w ∧ rest ≠ [] then some rest else none
    | _ => none
  else none

/-- parseList: checkbox, then unordered, then ordered, else TEXT.  Level
is `Math.floor(indent / 2)` — natural division. -/
def parseList (l : List Char) : CToken :=
  let ind := leadWS l
  let r := l.drop ind
  match cbMatch r with
  | some (chk, rest) =>
    { type := .LIST_ITEM, value := asStr rest, level := some (ind / 2),
      checked := some chk, listType := some "ul" }
  | none =>
    match ulMatch r with
    | some rest =>
      { type := .LIST_ITEM, value := asStr rest, level := some (ind / 2),
        listType := some "ul" }
    | none =>
      match olMatch r with
      | some rest =>
        { type := .LIST_ITEM, value := asStr rest, level := some (ind / 2),
          listType := some "ol" }
      | none => { type := .TEXT, value := asStr l }

/-- Split the trimmed row on `|`, keep the cells with nonempty trim,
trim them (`line.split("|").filter(c => c.trim()).map(c => c.trim())`). -/
def cellsOf (l : List Char) : List String :=
  (((splitOnSep '|' l).filter (fun c => jsTrim c ≠ [])).map (fun c => asStr (jsTrim c)))

/-- Alignment of one separator cell: `:...:` → center, `...:` → right,
else left. -/
def alignOf (c : List Char) : String :=
  let t := jsTrim c
  if t.head? = some ':' ∧ t.getLast? = some ':' then "center"
  else if t.getLast? = some ':' then "right"
  else "left"

/-- The alignment-row test of parseTable: there is a next line, its trim
starts with `|`, and it contains a `-` or `:` anywhere
(`alignLine.startsWith("|") && /[-:]/.test(alignLine)`). -/
def alignRowTest (lines : List (List Char)) (i : Nat) : Bool :=
  decide (i + 1 < lines.length) &&
    decide ((jsTrim (lines.getD (i + 1) [])).head? = some '|') &&
    (jsTrim (lines.getD (i + 1) [])).any (fun c => c = '-' || c = ':')

/-- parseTable: header row at `i`; if the next line starts (after
trimming) with `|` and contains a `-` or `:` anywhere it is consumed as
the alignment row; then every following `|`-starting line is a data
row.  The cursor ends one before the first non-row line (the source
decrements after its scan; `tokenize` then increments).  When no
alignment row was consumed every column defaults to left, one per
header cell. -/
def parseTable (lines : List (List Char)) (i : Nat) : CToken × Nat :=
  let headerLine := jsTrim (lines.getD i [])
  let headers := if headerLine.head? = some '|' then cellsOf headerLine else []
  let hasAlign := alignRowTest lines i
  let align :=
    if hasAlign then
      ((splitOnSep '|' (jsTrim (lines.getD (i + 1) []))).filter (fun c => jsTrim c ≠ [])).map alignOf
    else []
  let k := if hasAlign then i + 2 else i + 1
  let dataLines := (lines.drop k).takeWhile (fun l => (jsTrim l).head? = some '|')
  ({ type := .TABLE, value := "",
     headers := some headers,
     rows := some (dataLines.map (fun l => cellsOf (jsTrim l))),
     align := some (if align ≠ [] then align else headers.map (fun _ => "left")) },
   k + dataLines.length - 1)

/-- `^\|` on the trimmed line. -/
def isTable (l : List Char) : Bool := (jsTrim l).head? = some '|'

/-- tokenizeLine with the index threading of the stateful methods
(parseTable / parseCodeFence read further lines and move the cursor;
all other branches leave it in place).  Branch order as in the source:
blank, header, hr, table, code fence, blockquote, list, paragraph. -/
def tokenizeLine (lines : List (List Char)) (i : Nat) : CToken × Nat :=
  let line := lines.getD i []
  if jsTrim line = [] then ({ type := .BLANK, value := "" }, i)
  else if isHeader line then (parseHeader line, i)
  else if isHR line then ({ type := .HR, value := asStr line }, i)
  else if isTable line then parseTable lines i
  else if isCodeFence line then parseCodeFence lines i
  else if isBlockquote line then (parseBlockquote line, i)
  else if isList line then (parseList line, i)
  else ({ type := .PARAGRAPH, value := asStr line }, i)

/-- The scan loop of `tokenize`, with fuel.  Every iteration moves the
cursor forward by at least one line, so `lines.length + 1` fuel always
suffices. -/
def tokAux : Nat → List (List Char) → Nat → List CToken
  | 0, _, _ => []
  | fuel + 1, lines, i =>
    if i < lines.length then
      let s := tokenizeLine lines i
      s.1 :: tokAux fuel lines (s.2 + 1)
    else []

/-- mergeBlockquotes: maximal runs of consecutive BLOCKQUOTE tokens are
replaced by a single BLOCKQUOTE token whose value joins theirs with
newlines (and which carries no level).  The source scans left to right;
this right-fold merges the same maximal runs. -/
def mergeBlockquotes : List CToken → List CToken
  | [] => []
  | t :: ts =>
    if t.type = .BLOCKQUOTE then
      match mergeBlockquotes ts with
      | u :: us =>
        if u.type = .BLOCKQUOTE then
          { type := .BLOCKQUOTE, value := t.value ++ "\n" ++ u.value } :: us
        else
          { type := .BLOCKQUOTE, value := t.value } :: u :: us
      | [] => [{ type := .BLOCKQUOTE, value := t.value }]
    else t :: mergeBlockquotes ts

/-- Lexer.tokenize: split on `\n` (no `\r\n` normalisation in this
class), scan every line, then merge blockquote runs. -/
def tokenize (s : String) : List CToken :=
  let lines := splitOnSep '\n' s.toList
  mergeBlockquotes (tokAux (lines.length + 1) lines 0)

end CL

namespace MD

/-- No two adjacent TEXT nodes in a list (§3 normalization invariant,
at one level). -/
def noAdj (l : List InlineNode) : Prop :=
  List.Chain' (fun a b => isText a = false ∨ isText b = false) l

/-- The normalization invariant holds hereditarily: every child list of
a STRONG / EM / LINK node satisfies `noAdj` and its members recursively
satisfy this predicate. -/
inductive AllOk : InlineNode → Prop where
  | text (v : String) : AllOk (.TEXT v)
  | code (v : String) : AllOk (.CODE v)
  | image (src alt : String) (w h : Option String) : AllOk (.IMAGE src alt w h)
  | strong (cs : List InlineNode) : noAdj cs → (∀ c ∈ cs, AllOk c) → AllOk (.STRONG cs)
  | em (cs : List InlineNode) : noAdj cs → (∀ c ∈ cs, AllOk c) → AllOk (.EM cs)
  | link (href : String) (t : Option String) (cs : List InlineNode) :
      noAdj cs → (∀ c ∈ cs, AllOk c) → AllOk (.LINK href t cs)

end MD

/-! Helper lemmas. -/

namespace MD

theorem piGo_nil (b : Nat) : piGo b [] = [] := by
  cases b <;> rfl

theorem splitAtChar_fst_len (c : Char) (l : List Char) :
    (splitAtChar c l).1.length ≤ l.length := by
  induction l with
  | nil => simp [splitAtChar]
  | cons x xs ih =>
    simp only [splitAtChar]
    split
    · simp
    · simpa using Nat.succ_le_succ ih

theorem splitAtChar_snd_len (c : Char) (l : List Char) :
    (splitAtChar c l).2.length ≤ l.length := by
  induction l with
  | nil => simp [splitAtChar]
  | cons x xs ih =>
    simp only [splitAtChar]
    split
    · simp
    · exact le_trans ih (by simp)

theorem splitAtStr_fst_len (d : List Char) (l : List Char) :
    (splitAtStr d l).1.length ≤ l.length := by
  induction l with
  | nil => simp [splitAtStr]
  | cons x xs ih =>
    simp only [splitAtStr]
    split
    · simp
    · simpa using Nat.succ_le_succ ih

theorem splitAtStr_snd_len (d : List Char) (l : List Char) :
    (splitAtStr d l).2.length ≤ l.length := by
  induction l with
  | nil => simp [splitAtStr]
  | cons x xs ih =>
    simp only [splitAtStr]
    split
    · simp
    · exact le_trans ih (by simp)

theorem dropLeadChar_len (c : Char) (l : List Char) :
    (dropLeadChar c l).length ≤ l.length := by
  cases l with
  | nil => simp [dropLeadChar]
  | cons x xs =>
    simp only [dropLeadChar]
    split <;> simp

theorem dropLeadStr_len (d : List Char) (l : List Char) :
    (dropLeadStr d l).length ≤ l.length := by
  unfold dropLeadStr
  split
  · simp
  · exact le_refl _

theorem splitAtChar_not_mem (c : Char) (l : List Char) (h : c ∉ l) :
    splitAtChar c l = (l, []) := by
  induction l with
  | nil => rfl
  | cons x xs ih =>
    simp only [splitAtChar]
    rw [if_neg (by rintro rfl; exact h (List.mem_cons_self _ _)),
        ih (fun hx => h (List.mem_cons_of_mem _ hx))]

theorem splitAtStr_not_mem (c : Char) (d : List Char) (l : List Char) (h : c ∉ l) :
    splitAtStr (c :: d) l = (l, []) := by
  induction l with
  | nil => rfl
  | cons x xs ih =>
    simp only [splitAtStr]
    rw [if_neg, ih (fun hx => h (List.mem_cons_of_mem _ hx))]
    simp only [startsWithL, Bool.and_eq_true, decide_eq_true_eq, not_and]
    rintro rfl
    exact absurd (List.mem_cons_self _ _) h

theorem tail_len (l : List Char) : l.tail.length ≤ l.length := by
  cases l <;> simp

/-- The structural bound of `piGo` is plain fuel: any two bounds larger
than the input length give the same result. -/
theorem piGo_irrel : ∀ (b₁ : Nat) (l : List Char) (b₂ : Nat),
    l.length < b₁ → l.length < b₂ → piGo b₁ l = piGo b₂ l := by
  intro b₁
  induction b₁ with
  | zero => exact fun l b₂ h1 _ => absurd h1 (Nat.not_lt_zero _)
  | succ a ih =>
    intro l b₂ h1 h2
    cases l with
    | nil => simp [piGo_nil]
    | cons c cs =>
      cases b₂ with
      | zero => exact absurd h2 (Nat.not_lt_zero _)
      | succ y =>
        have hcs_a : cs.length < a := Nat.lt_of_succ_lt_succ (by simpa using h1)
        have hcs_y : cs.length < y := Nat.lt_of_succ_lt_succ (by simpa using h2)
        have key : ∀ r : List Char, r.length ≤ cs.length → piGo a r = piGo y r :=
          fun r hr => ih r y (lt_of_le_of_lt hr hcs_a) (lt_of_le_of_lt hr hcs_y)
        -- length bounds for every remainder a branch can recurse on
        have B1 : (dropLeadChar ']' (splitAtChar ']' cs.tail).2).length ≤ cs.length :=
          le_trans (dropLeadChar_len _ _) (le_trans (splitAtChar_snd_len _ _) (tail_len _))
        have B2 : (dropLeadChar ')'
            (splitAtChar ')' ((dropLeadChar ']' (splitAtChar ']' cs.tail).2).tail)).2).length ≤
            cs.length :=
          le_trans (dropLeadChar_len _ _)
            (le_trans (splitAtChar_snd_len _ _) (le_trans (tail_len _) B1))
        have B3 : (splitAtChar ']' cs).1.length ≤ cs.length := splitAtChar_fst_len _ _
        have B4 : (dropLeadChar ']' (splitAtChar ']' cs).2).length ≤ cs.length :=
          le_trans (dropLeadChar_len _ _) (splitAtChar_snd_len _ _)
        have B5 : (dropLeadChar ')'
            (splitAtChar ')' ((dropLeadChar ']' (splitAtChar ']' cs).2).tail)).2).length ≤
            cs.length :=
          le_trans (dropLeadChar_len _ _)
            (le_trans (splitAtChar_snd_len _ _) (le_trans (tail_len _) B4))
        have B7 : (dropLeadChar '`' (splitAtChar '`' cs).2).length ≤ cs.length :=
          le_trans (dropLeadChar_len _ _) (splitAtChar_snd_len _ _)
        have B8 : (splitAtStr [c, c] cs.tail).1.length ≤ cs.length :=
          le_trans (splitAtStr_fst_len _ _) (tail_len _)
        have B9 : (dropLeadStr [c, c] (splitAtStr [c, c] cs.tail).2).length ≤ cs.length :=
          le_trans (dropLeadStr_len _ _) (le_trans (splitAtStr_snd_len _ _) (tail_len _))
        have B10 : (splitAtChar c cs).1.length ≤ cs.length := splitAtChar_fst_len _ _
        have B11 : (dropLeadChar c (splitAtChar c cs).2).length ≤ cs.length :=
          le_trans (dropLeadChar_len _ _) (splitAtChar_snd_len _ _)
        have B12 : cs.length ≤ cs.length := le_refl _
        simp only [piGo]
        split_ifs
        all_goals
          repeat first
            | rfl
            | rw [key _ B2] | rw [key _ B1] | rw [key _ B5] | rw [key _ B4]
            | rw [key _ B3] | rw [key _ B7] | rw [key _ B9] | rw [key _ B8]
            | rw [key _ B11] | rw [key _ B10] | rw [key _ B12]

theorem noAdj_cons_of_not_text (n : InlineNode) (hn : isText n = false)
    (l : List InlineNode) (h : noAdj l) : noAdj (n :: l) := by
  rw [noAdj, List.chain'_cons']
  exact ⟨fun y _ => Or.inl hn, h⟩

theorem noAdj_cons_cons_of_not_text (x m : InlineNode) (r : List InlineNode)
    (hm : isText m = false) (h : noAdj (m :: r)) : noAdj (x :: m :: r) := by
  rw [noAdj, List.chain'_cons']
  refine ⟨fun y hy => ?_, h⟩
  simp only [List.head?_cons, Option.mem_def, Option.some.injEq] at hy
  subst hy
  exact Or.inr hm

/-- The output of mergeAdjacentTextNodes never has two adjacent TEXT
nodes. -/
theorem merge_noAdj (l : List InlineNode) : noAdj (mergeAdjacentTextNodes l) := by
  induction l with
  | nil => exact List.chain'_nil
  | cons n rest ih =>
    cases n
    case TEXT a =>
      simp only [mergeAdjacentTextNodes]
      cases h : mergeAdjacentTextNodes rest with
      | nil => exact List.chain'_singleton _
      | cons m r =>
        rw [h] at ih
        cases m
        case TEXT b =>
          rw [noAdj, List.chain'_cons'] at ih ⊢
          exact ⟨fun y hy => Or.inr ((ih.1 y hy).resolve_left (by simp [isText])), ih.2⟩
        all_goals
          refine noAdj_cons_cons_of_not_text _ _ _ ?_ ih
          rfl
    all_goals
      simp only [mergeAdjacentTextNodes]
      refine noAdj_cons_of_not_text _ ?_ _ ih
      rfl

/-- mergeAdjacentTextNodes preserves the hereditary invariant of every
node (it only concatenates top-level TEXT leaves). -/
theorem merge_allOk (l : List InlineNode) (h : ∀ n ∈ l, AllOk n) :
    ∀ n ∈ mergeAdjacentTextNodes l, AllOk n := by
  induction l with
  | nil => simp [mergeAdjacentTextNodes]
  | cons n rest ih =>
    have hrest := ih (fun m hm => h m (List.mem_cons_of_mem _ hm))
    cases n
    case TEXT a =>
      simp only [mergeAdjacentTextNodes]
      cases hm : mergeAdjacentTextNodes rest with
      | nil =>
        intro x hx
        simp only [List.mem_singleton] at hx
        subst hx
        exact AllOk.text a
      | cons m0 r =>
        rw [hm] at hrest
        cases m0
        case TEXT b =>
          intro x hx
          rcases List.mem_cons.mp hx with rfl | hx'
          · exact AllOk.text _
          · exact hrest x (List.mem_cons_of_mem _ hx')
        all_goals
          intro x hx
          rcases List.mem_cons.mp hx with rfl | hx'
          · exact AllOk.text _
          · exact hrest x hx'
    all_goals
      simp only [mergeAdjacentTextNodes]
      intro x hx
      rcases List.mem_cons.mp hx with rfl | hx'
      · exact h _ (List.mem_cons_self _ _)
      · exact hrest x hx'

/-- Every node produced by the parseInline loop satisfies the hereditary
invariant: children of STRONG / EM / LINK nodes are merged recursive
parses. -/
theorem piGo_allOk : ∀ (b : Nat) (l : List Char), ∀ n ∈ piGo b l, AllOk n := by
  intro b
  induction b with
  | zero => intro l n hn; simp [piGo] at hn
  | succ a ih =>
    intro l n hn
    cases l with
    | nil => simp [piGo] at hn
    | cons c cs =>
      simp only [piGo] at hn
      split_ifs at hn
      all_goals
        rcases List.mem_cons.mp hn with rfl | hmem
      all_goals
        first
          | exact AllOk.text _
          | exact AllOk.code _
          | exact AllOk.image _ _ _ _
          | exact AllOk.link _ _ _ (merge_noAdj _) (merge_allOk _ (fun m hm => ih _ m hm))
          | exact AllOk.strong _ (merge_noAdj _) (merge_allOk _ (fun m hm => ih _ m hm))
          | exact AllOk.em _ (merge_noAdj _) (merge_allOk _ (fun m hm => ih _ m hm))
          | exact ih _ n hmem
          | simp at hmem

end MD




namespace MD

theorem takeWhile_all {α} (p : α → Bool) (l : List α) (h : ∀ x ∈ l, p x = true) :
    l.takeWhile p = l := by
  induction l with
  | nil => rfl
  | cons x xs ih =>
    rw [List.takeWhile_cons, if_pos (h x (List.mem_cons_self _ _)),
        ih (fun y hy => h y (List.mem_cons_of_mem _ hy))]

theorem dropWhile_all {α} (p : α → Bool) (l : List α) (h : ∀ x ∈ l, p x = true) :
    l.dropWhile p = [] := by
  induction l with
  | nil => rfl
  | cons x xs ih =>
    rw [List.dropWhile_cons, if_pos (h x (List.mem_cons_self _ _)),
        ih (fun y hy => h y (List.mem_cons_of_mem _ hy))]

theorem takeWhile_append_all {α} (p : α → Bool) (l r : List α)
    (hl : ∀ x ∈ l, p x = true) (hr : ∀ u ∈ r.head?, p u = false) :
    (l ++ r).takeWhile p = l := by
  induction l with
  | nil =>
    cases r with
    | nil => rfl
    | cons u us =>
      have hu := hr u (by simp)
      simp [List.takeWhile_cons, hu]
  | cons x xs ih =>
    rw [List.cons_append, List.takeWhile_cons, if_pos (hl x (List.mem_cons_self _ _)),
        ih (fun y hy => hl y (List.mem_cons_of_mem _ hy))]

theorem dropWhile_append_all {α} (p : α → Bool) (l r : List α)
    (hl : ∀ x ∈ l, p x = true) (hr : ∀ u ∈ r.head?, p u = false) :
    (l ++ r).dropWhile p = r := by
  induction l with
  | nil =>
    cases r with
    | nil => rfl
    | cons u us =>
      have hu := hr u (by simp)
      simp [List.dropWhile_cons, hu]
  | cons x xs ih =>
    rw [List.cons_append, List.dropWhile_cons, if_pos (hl x (List.mem_cons_self _ _)),
        ih (fun y hy => hl y (List.mem_cons_of_mem _ hy))]

end MD

namespace CL

theorem parseHeader_type (l : List Char) :
    (parseHeader l).type = .HEADER ∨ (parseHeader l).type = .TEXT := by
  simp only [parseHeader]
  split
  · exact Or.inl rfl
  · exact Or.inr rfl

theorem parseBlockquote_type (l : List Char) :
    (parseBlockquote l).type = .BLOCKQUOTE := by
  simp only [parseBlockquote]
  split <;> rfl

theorem parseBlockquote_level (l : List Char) (h : l.head? = some '>') :
    (parseBlockquote l).level = some ((l.takeWhile (· = '>')).length) := by
  cases l with
  | nil => simp at h
  | cons c cs =>
    simp only [List.head?_cons, Option.some.injEq] at h
    subst h
    simp only [parseBlockquote]
    rw [if_pos]
    all_goals first
      | rfl
      | simp [List.takeWhile_cons]

theorem isBlockquote_head (l : List Char) (h : isBlockquote l = true) :
    l.head? = some '>' := by
  cases l with
  | nil => simp [isBlockquote] at h
  | cons a as =>
    cases as with
    | nil => simp [isBlockquote] at h
    | cons b bs =>
      simp only [isBlockquote, Bool.and_eq_true, decide_eq_true_eq] at h
      simp [h.1]

theorem parseList_level (l : List Char) :
    (parseList l).level = some (MD.leadWS l / 2) ∨ (parseList l).type = .TEXT := by
  simp only [parseList]
  split
  · exact Or.inl rfl
  · split
    · exact Or.inl rfl
    · split
      · exact Or.inl rfl
      · exact Or.inr rfl

theorem parseList_type (l : List Char) :
    (parseList l).type = .LIST_ITEM ∨ (parseList l).type = .TEXT := by
  simp only [parseList]
  split
  · exact Or.inl rfl
  · split
    · exact Or.inl rfl
    · split
      · exact Or.inl rfl
      · exact Or.inr rfl

theorem parseTable_type (lines : List (List Char)) (i : Nat) :
    (parseTable lines i).1.type = .TABLE := rfl

theorem parseCodeFence_type (lines : List (List Char)) (i : Nat) :
    (parseCodeFence lines i).1.type = .CODE_FENCE := rfl

end CL

/-! Claim theorems. -/

/-- C1 (code bug evidence): the block tokenizer `lexer` does NOT
terminate on every input.  On the line `"``` x"` — which starts with
three backticks but is not a well-formed fence line, so the fence rule
rejects it while the paragraph loop's break test `^```​` accepts it —
the paragraph fallback consumes zero lines and the cursor never
advances: no amount of fuel makes the scan finish (first conjunct), so
the embedded `lexer`, whose fuel is the line count plus one, returns
`none` (second conjunct).  Hence the spec's totality / line-coverage
property fails on this input. -/
theorem c1_lexer_divergence :
    (∀ fuel : Nat,
        MD.lexerAux fuel (MD.splitOnSep '\n' (MD.replCRLF ("``` x".toList))) 0 = none) ∧
    MD.lexer "``` x" = none := by
  have h : ∀ fuel : Nat,
      MD.lexerAux fuel (MD.splitOnSep '\n' (MD.replCRLF ("``` x".toList))) 0 = none := by
    intro fuel
    induction fuel with
    | zero => rfl
    | succ f ih =>
      rw [show MD.lexerAux (f + 1) (MD.splitOnSep '\n' (MD.replCRLF ("``` x".toList))) 0 =
            (MD.lexerAux f (MD.splitOnSep '\n' (MD.replCRLF ("``` x".toList))) 0).map
              ({ type := .PARAGRAPH, raw := "", line := 0 } :: ·) from rfl, ih]
      rfl
  exact ⟨h, h 2⟩

/-- C2 (counterexample): on the list-item line `"   - b"` (three leading
spaces) the functional lexer records depth `3 / 2` — JS float division,
not the claimed `⌊3 / 2⌋ = 1`. -/
theorem c2_counterexample :
    MD.lexer "   - b" =
      some [{ type := .UL_ITEM, raw := "b", line := 0, depth := some ((3 : ℚ) / 2),
              bullet := some "-" }] ∧
    (⌊(3 : ℚ) / 2⌋ = 1) ∧ ((3 : ℚ) / 2 ≠ 1) :=
  ⟨rfl, by norm_num, by norm_num⟩

/-- C3 (counterexample): an unmatched backtick is NOT emitted as literal
text; `parseInline "`a"` produces a Code node containing everything up
to end of input. -/
theorem c3_counterexample :
    MD.parseInline "`a" = [.CODE "a"] ∧ MD.isText (.CODE "a") = false :=
  ⟨rfl, rfl⟩

/-- C4 (counterexample): on `"- a\n  - b\n- c"` the tree builder
produces ONE unordered list whose items are three flat paragraphs
`[a, b, c]` — not two items `[a, c]` with a nested list inside `a`'s
subtree; nesting is not encoded in the tree (parser.ts's parseList
comment says so explicitly). -/
theorem c4_counterexample :
    MD.toAST "- a\n  - b\n- c" =
      some [.UL [.PARAGRAPH [.TEXT "a"], .PARAGRAPH [.TEXT "b"], .PARAGRAPH [.TEXT "c"]]] ∧
    [(.PARAGRAPH [.TEXT "a"] : MD.BlockNode), .PARAGRAPH [.TEXT "b"],
      .PARAGRAPH [.TEXT "c"]].length ≠ 2 :=
  ⟨rfl, by decide⟩

/-- C4 (amended): the functional tree builder flattens the nested-list
scenario into a single unordered list with the three items as sibling
paragraphs, in order. -/
theorem c4_flat_list :
    MD.toAST "- a\n  - b\n- c" =
      some [.UL [.PARAGRAPH [.TEXT "a"], .PARAGRAPH [.TEXT "b"], .PARAGRAPH [.TEXT "c"]]] :=
  rfl

/-- C5 (scenario part is the second conjunct): consecutive BLOCKQUOTE
tokens are collected into one maximal run, their raw contents joined
with newlines and re-run through the whole pipeline; on
`"> outer\n>> inner"` this produces one Blockquote containing
Paragraph "outer" and a nested Blockquote containing
Paragraph "inner". -/
theorem c5_blockquote_grouping :
    (∀ (fuel : Nat) (run rest : List MD.FToken),
        run ≠ [] →
        (∀ t ∈ run, t.type = MD.FTokType.BLOCKQUOTE) →
        (∀ u ∈ rest.head?, u.type ≠ MD.FTokType.BLOCKQUOTE) →
        MD.pAux (fuel + 1) (run ++ rest) =
          (MD.lexer (MD.joinNL (run.map (fun t => t.raw)))).bind fun itoks =>
            (MD.pAux fuel itoks).bind fun inner =>
              (MD.pAux fuel rest).map (MD.BlockNode.BLOCKQUOTE inner :: ·)) ∧
    MD.toAST "> outer\n>> inner" =
      some [.BLOCKQUOTE [.PARAGRAPH [.TEXT "outer"], .BLOCKQUOTE [.PARAGRAPH [.TEXT "inner"]]]] := by
  constructor
  · intro fuel run rest hne hall hrest
    obtain ⟨t, run', rfl⟩ : ∃ t run', run = t :: run' := by
      cases run with
      | nil => exact absurd rfl hne
      | cons t r => exact ⟨t, r, rfl⟩
    have ht : t.type = MD.FTokType.BLOCKQUOTE := hall t (List.mem_cons_self _ _)
    have htake : ((t :: run') ++ rest).takeWhile (fun u => u.type = MD.FTokType.BLOCKQUOTE) =
        t :: run' :=
      MD.takeWhile_append_all _ _ _
        (fun x hx => by simpa using hall x hx)
        (fun u hu => by simpa using hrest u hu)
    have hdrop : ((t :: run') ++ rest).dropWhile (fun u => u.type = MD.FTokType.BLOCKQUOTE) =
        rest :=
      MD.dropWhile_append_all _ _ _
        (fun x hx => by simpa using hall x hx)
        (fun u hu => by simpa using hrest u hu)
    rw [List.cons_append] at htake hdrop ⊢
    simp only [MD.pAux, ht]
    rw [if_pos trivial, htake, hdrop]
    simp
  · rfl

namespace MD

theorem lexerAux_step (fuel : Nat) (lines : List (List Char)) (i : Nat)
    (h : i < lines.length) :
    lexerAux (fuel + 1) lines i =
      (lexerAux fuel lines (fLexStep lines i).2).map ((fLexStep lines i).1 :: ·) := by
  simp [lexerAux, h]

theorem lexerAux_stop (fuel : Nat) (lines : List (List Char)) (i : Nat)
    (h : ¬ i < lines.length) :
    lexerAux (fuel + 1) lines i = some [] := by
  simp [lexerAux, h]

end MD

/-- C5 witness: the grouping law instantiated at a single blockquote
token with nothing after it. -/
theorem c5_witness :
    MD.pAux 4 [{ type := MD.FTokType.BLOCKQUOTE, raw := "q", line := 0 }] =
      (MD.lexer (MD.joinNL (List.map (fun t => t.raw)
          ([{ type := MD.FTokType.BLOCKQUOTE, raw := "q", line := 0 }] : List MD.FToken)))).bind
        fun itoks =>
          (MD.pAux 3 itoks).bind fun inner =>
            (MD.pAux 3 ([] : List MD.FToken)).map (MD.BlockNode.BLOCKQUOTE inner :: ·) :=
  c5_blockquote_grouping.1 3 [{ type := .BLOCKQUOTE, raw := "q", line := 0 }] []
    (by simp) (by decide) (by simp)

/-- C6: an unterminated fenced code block degrades gracefully.  First
conjunct (general): if the opening line is three backticks followed by a
nonempty non-whitespace language word and no later line starts with
three backticks, the lexer emits exactly one CODE_FENCE token whose
language is that word and whose raw text is all remaining lines joined
with newlines.  Second conjunct: the spec's scenario
`"```js\nconsole.log(1)"` produces one CodeBlock with language "js" and
literal text "console.log(1)". -/
theorem c6_unterminated_fence :
    (∀ (w : List Char) (rest : List (List Char)),
        w ≠ [] → (∀ c ∈ w, MD.jsWS c = false) →
        (∀ l ∈ rest, MD.startsWithL ['`', '`', '`'] l = false) →
        MD.lexerLines (('`' :: '`' :: '`' :: w) :: rest) =
          some [{ type := .CODE_FENCE, raw := MD.joinLinesNL rest, line := 0,
                  lang := some (MD.asStr w) }]) ∧
    MD.toAST "```js\nconsole.log(1)" = some [.CODE (some "js") "console.log(1)"] := by
  refine ⟨?_, rfl⟩
  intro w rest hw hnw hrest
  have hblank : MD.isBlankL ('`' :: '`' :: '`' :: w) = false := by
    simp [MD.isBlankL, MD.jsWS]
  have hdw : w.dropWhile (fun c => !MD.jsWS c) = [] :=
    MD.dropWhile_all _ _ (fun x hx => by rw [hnw x hx]; rfl)
  have hfence : MD.fenceCond ('`' :: '`' :: '`' :: w) = true := by
    simp [MD.fenceCond, MD.startsWithL, hdw]
  have hbody : rest.takeWhile (fun l => !MD.startsWithL ['`', '`', '`'] l) = rest :=
    MD.takeWhile_all _ _ (fun x hx => by rw [hrest x hx]; rfl)
  have hlang : w.takeWhile (fun c => !MD.jsWS c) = w :=
    MD.takeWhile_all _ _ (fun x hx => by rw [hnw x hx]; rfl)
  have hstep : MD.fLexStep (('`' :: '`' :: '`' :: w) :: rest) 0 =
      ({ type := .CODE_FENCE, raw := MD.joinLinesNL rest, line := 0,
         lang := some (MD.asStr w) }, 1 + rest.length) := by
    simp [MD.fLexStep, hblank, hfence, hbody, hlang, MD.fenceLang, hw]
  simp only [MD.lexerLines, List.length_cons]
  rw [MD.lexerAux_step _ _ _ (by simp), hstep]
  rw [MD.lexerAux_stop _ _ _ (by simp only [List.length_cons]; omega)]
  rfl

/-- C6 witness: the general fence law instantiated at language "js" and
one following line "a". -/
theorem c6_witness :
    MD.lexerLines [['`', '`', '`', 'j', 's'], ['a']] =
      some [{ type := .CODE_FENCE, raw := MD.joinLinesNL [['a']], line := 0,
              lang := some (MD.asStr ['j', 's']) }] :=
  c6_unterminated_fence.1 ['j', 's'] [['a']] (by decide) (by decide) (by decide)

/-- C7 (counterexample to the default-alignment clause): on
`"| A | B |\n| x-y |"` the line after the header is not an
alignment-separator row (its only cell, "x-y", is not made of dashes
and colons only — third conjunct), yet the Lexer consumes it as one
because it starts with `|` and contains a `-`: the token's alignment
list is `["left"]`, of length 1, not the header length 2 (and the row
is swallowed: `rows = []`). -/
theorem c7_counterexample :
    CL.tokenize "| A | B |\n| x-y |" =
      [{ type := .TABLE, value := "", headers := some ["A", "B"], rows := some [],
         align := some ["left"] }] ∧
    ((CL.cellsOf (MD.jsTrim "| x-y |".toList)).all
        (fun s => s.toList.all (fun c => c = '-' || c = ':')) = false) ∧
    ["left"].length ≠ ["A", "B"].length :=
  ⟨by decide, by decide, by decide⟩

/-- C7 (amended): the spec scenario holds (second conjunct), and the
left-alignment default with count equal to the header length applies
exactly when the code's alignment-row test fails — the next line is
missing, or its trim does not start with `|`, or it contains neither
`-` nor `:` (first conjunct). -/
theorem c7_table_alignment :
    (∀ (lines : List (List Char)) (i : Nat),
        CL.alignRowTest lines i = false →
        (CL.parseTable lines i).1.align =
          Option.map (fun hs => hs.map (fun _ => "left")) (CL.parseTable lines i).1.headers) ∧
    CL.tokenize "| A | B |\n|---|---|\n| 1 | 2 |" =
      [{ type := .TABLE, value := "", headers := some ["A", "B"],
         rows := some [["1", "2"]], align := some ["left", "left"] }] := by
  constructor
  · intro lines i h
    simp [CL.parseTable, h]
  · decide

/-- C7 witness: the default-alignment rule at a one-line table with no
following line. -/
theorem c7_witness :
    (CL.parseTable [['|', 'A', '|']] 0).1.align =
      Option.map (fun hs => hs.map (fun _ => "left"))
        (CL.parseTable [['|', 'A', '|']] 0).1.headers :=
  c7_table_alignment.1 [['|', 'A', '|']] 0 (by decide)

/-- C8 (counterexample): the image-size annotation is NOT captured.  On
`"![a](b){2x3}"` parseInline yields an Image node with `src = "b"`,
`alt = "a"` and `width = height = none` — the `{2x3}` suffix becomes a
literal Text node instead of width 2 / height 3. -/
theorem c8_counterexample :
    MD.parseInline "![a](b){2x3}" = [.IMAGE "b" "a" none none, .TEXT "{2x3}"] :=
  rfl

/-- C8 (amended): parseInline records only src and alt.  A `{WxH}`
suffix is left in the stream as literal text, and an `=WxH` annotation
inside the parentheses is absorbed into the src; width and height are
never populated. -/
theorem c8_image_size_ignored :
    MD.parseInline "![a](b){2x3}" = [.IMAGE "b" "a" none none, .TEXT "{2x3}"] ∧
    MD.parseInline "![a](b =2x3)" = [.IMAGE "b =2x3" "a" none none] :=
  ⟨rfl, rfl⟩

/-- C9: the text-merge invariant.  For every input string the inline
tree returned by parseInline has no two adjacent TEXT nodes at the top
level, and every node satisfies the hereditary invariant `AllOk`
(children of STRONG / EM / LINK nodes recursively satisfy both). -/
theorem c9_text_merge_invariant (s : String) :
    MD.noAdj (MD.parseInline s) ∧ ∀ n ∈ MD.parseInline s, MD.AllOk n :=
  ⟨MD.merge_noAdj _, MD.merge_allOk _ (fun m hm => MD.piGo_allOk _ _ m hm)⟩

/-- C10: plain-text identity.  A nonempty character list containing
none of `!`, `[`, `)`, `` ` ``, `*`, `_` is parsed as exactly one TEXT
node holding the input unchanged. -/
theorem c10_plain_text_identity (l : List Char) (hne : l ≠ [])
    (h : ∀ c ∈ l, ¬(c = '!' ∨ c = '[' ∨ c = ')' ∨ c = '`' ∨ c = '*' ∨ c = '_')) :
    MD.parseInlineL l = [.TEXT (MD.asStr l)] := by
  obtain ⟨c, cs, rfl⟩ : ∃ c cs, l = c :: cs := by
    cases l with
    | nil => exact absurd rfl hne
    | cons c cs => exact ⟨c, cs, rfl⟩
  have hc := h c (List.mem_cons_self _ _)
  have hdelim : MD.containsDelim (c :: cs) = false := by
    simp only [MD.containsDelim, List.any_eq_false, Bool.or_eq_true, decide_eq_true_eq]
    intro x hx
    have := h x hx
    tauto
  show MD.mergeAdjacentTextNodes (MD.piGo (cs.length + 1 + 1) (c :: cs)) = _
  rw [show MD.piGo (cs.length + 1 + 1) (c :: cs) =
      (if c = '!' ∧ cs.head? = some '[' then _ else _) from rfl]
  rw [if_neg (by tauto), if_neg (by tauto), if_neg (by tauto),
      if_neg (by rintro ⟨h1 | h1, -⟩ <;> tauto), if_neg (by tauto),
      if_neg (by simp [hdelim])]
  rfl

/-- C10 witness: the plain-text identity at "abc". -/
theorem c10_witness :
    MD.parseInlineL ['a', 'b', 'c'] = [.TEXT (MD.asStr ['a', 'b', 'c'])] :=
  c10_plain_text_identity ['a', 'b', 'c'] (by decide) (by decide)

/-- C2 (amended): (1) every UL_ITEM / OL_ITEM token of the functional
lexer records depth `indent / 2` exactly, as a rational (an integer —
the claimed floor — only when the indent is even); (2) every LIST_ITEM
token of the class-based Lexer records level `⌊indent / 2⌋` (natural
division); (3) every BLOCKQUOTE token of the class-based Lexer records
level equal to the count of leading `>` characters of its line. -/
theorem c2_depth_laws :
    (∀ (lines : List (List Char)) (i : Nat),
        ((MD.fLexStep lines i).1.type = MD.FTokType.UL_ITEM ∨
          (MD.fLexStep lines i).1.type = MD.FTokType.OL_ITEM) →
        (MD.fLexStep lines i).1.depth =
          some ((MD.leadWS (lines.getD i []) : ℚ) / 2)) ∧
    (∀ (lines : List (List Char)) (i : Nat),
        (CL.tokenizeLine lines i).1.type = CL.CTokType.LIST_ITEM →
        (CL.tokenizeLine lines i).1.level =
          some (MD.leadWS (lines.getD i []) / 2)) ∧
    (∀ (lines : List (List Char)) (i : Nat),
        (CL.tokenizeLine lines i).1.type = CL.CTokType.BLOCKQUOTE →
        (CL.tokenizeLine lines i).1.level =
          some (((lines.getD i []).takeWhile (· = '>')).length)) := by
  refine ⟨?_, ?_, ?_⟩
  · intro lines i h
    simp only [MD.fLexStep] at h ⊢
    split_ifs at h ⊢ <;>
      first
        | rfl
        | (rcases h with h | h <;> simp at h)
  · intro lines i h
    simp only [CL.tokenizeLine] at h ⊢
    split_ifs at h ⊢ <;>
    first
      | exact absurd h (by decide)
      | (have h' : (CL.parseTable lines i).1.type = CL.CTokType.LIST_ITEM := h
         rw [CL.parseTable_type] at h'
         simp at h')
      | (have h' : (CL.parseCodeFence lines i).1.type = CL.CTokType.LIST_ITEM := h
         rw [CL.parseCodeFence_type] at h'
         simp at h')
      | (have h' : (CL.parseHeader (lines.getD i [])).type = CL.CTokType.LIST_ITEM := h
         rcases CL.parseHeader_type (lines.getD i []) with he | he <;> rw [he] at h' <;> simp at h')
      | (have h' : (CL.parseBlockquote (lines.getD i [])).type = CL.CTokType.LIST_ITEM := h
         rw [CL.parseBlockquote_type] at h'
         simp at h')
      | (exact (CL.parseList_level (lines.getD i [])).resolve_right (fun ht => by
          have h' : (CL.parseList (lines.getD i [])).type = CL.CTokType.LIST_ITEM := h
          rw [ht] at h'
          simp at h'))
  · intro lines i h
    simp only [CL.tokenizeLine] at h ⊢
    split_ifs at h ⊢ <;>
    first
      | exact absurd h (by decide)
      | (have h' : (CL.parseTable lines i).1.type = CL.CTokType.BLOCKQUOTE := h
         rw [CL.parseTable_type] at h'
         simp at h')
      | (have h' : (CL.parseCodeFence lines i).1.type = CL.CTokType.BLOCKQUOTE := h
         rw [CL.parseCodeFence_type] at h'
         simp at h')
      | (have h' : (CL.parseHeader (lines.getD i [])).type = CL.CTokType.BLOCKQUOTE := h
         rcases CL.parseHeader_type (lines.getD i []) with he | he <;> rw [he] at h' <;> simp at h')
      | exact CL.parseBlockquote_level _ (CL.isBlockquote_head _ (by assumption))
      | (have h' : (CL.parseList (lines.getD i [])).type = CL.CTokType.BLOCKQUOTE := h
         rcases CL.parseList_type (lines.getD i []) with ht | ht <;> rw [ht] at h' <;> simp at h')


/-- C2 witness: the depth laws at the lines "  - a" (functional and
class lexers) and "> q" (class blockquote). -/
theorem c2_witness :
    (MD.fLexStep ["  - a".toList] 0).1.depth =
      some ((MD.leadWS ((["  - a".toList] : List (List Char)).getD 0 []) : ℚ) / 2) ∧
    (CL.tokenizeLine ["  - a".toList] 0).1.level =
      some (MD.leadWS ((["  - a".toList] : List (List Char)).getD 0 []) / 2) ∧
    (CL.tokenizeLine ["> q".toList] 0).1.level =
      some (((["> q".toList] : List (List Char)).getD 0 []).takeWhile (· = '>')).length :=
  ⟨c2_depth_laws.1 _ 0 (Or.inl (by decide)),
   c2_depth_laws.2.1 _ 0 (by decide),
   c2_depth_laws.2.2 _ 0 (by decide)⟩

/-- C3 (amended): how each unmatched opening delimiter actually
degrades.  An unmatched `[` with no `]` (and hence no `(...)`) is the
only case emitted as literal text; an unmatched backtick produces a
CODE node holding the rest of the input; unmatched `*` / `**` produce
EM / STRONG nodes whose children parse the rest as if the delimiter had
been closed at end of input; `[text](href` with an unmatched `(`
produces a LINK node whose href is the remainder.  No case fails:
parseInline is a total function. -/
theorem c3_unmatched_delimiters :
    (∀ t : List Char, ']' ∉ t →
        MD.parseInlineL ('[' :: t) = [.TEXT (MD.asStr ('[' :: t))]) ∧
    (∀ t : List Char, '`' ∉ t →
        MD.parseInlineL ('`' :: t) = [.CODE (MD.asStr t)]) ∧
    (∀ t : List Char, '*' ∉ t →
        MD.parseInlineL ('*' :: t) = [.EM (MD.parseInlineL t)]) ∧
    (∀ t : List Char, '*' ∉ t →
        MD.parseInlineL ('*' :: '*' :: t) = [.STRONG (MD.parseInlineL t)]) ∧
    MD.parseInline "[a](b" = [.LINK "b" none [.TEXT "a"]] := by
  refine ⟨?_, ?_, ?_, ?_, rfl⟩
  · intro t ht
    show MD.mergeAdjacentTextNodes (MD.piGo (t.length + 1 + 1) ('[' :: t)) = _
    simp only [MD.piGo, MD.splitAtChar_not_mem _ _ ht]
    simp [MD.dropLeadChar, MD.piGo_nil, MD.mergeAdjacentTextNodes]
  · intro t ht
    show MD.mergeAdjacentTextNodes (MD.piGo (t.length + 1 + 1) ('`' :: t)) = _
    simp only [MD.piGo, MD.splitAtChar_not_mem _ _ ht]
    simp [MD.dropLeadChar, MD.piGo_nil, MD.mergeAdjacentTextNodes]
  · intro t ht
    have hh : t.head? ≠ some '*' := by
      cases t with
      | nil => simp
      | cons x xs =>
        simp only [List.head?_cons, ne_eq, Option.some.injEq]
        rintro rfl
        exact ht (List.mem_cons_self _ _)
    show MD.mergeAdjacentTextNodes (MD.piGo (t.length + 1 + 1) ('*' :: t)) = _
    simp only [MD.piGo, MD.splitAtChar_not_mem _ _ ht]
    simp [MD.dropLeadChar, MD.piGo_nil, MD.mergeAdjacentTextNodes, MD.parseInlineL, hh]
  · intro t ht
    show MD.mergeAdjacentTextNodes (MD.piGo (t.length + 2 + 1) ('*' :: '*' :: t)) = _
    simp only [MD.piGo, List.tail_cons, MD.splitAtStr_not_mem '*' ['*'] t ht]
    rw [MD.piGo_irrel (t.length + 2) t (t.length + 1) (by omega) (by omega)]
    simp [MD.dropLeadStr, MD.startsWithL, MD.piGo_nil, MD.mergeAdjacentTextNodes,
      MD.parseInlineL]

/-- C3 witness: the degradation laws at one-character remainders. -/
theorem c3_witness :
    MD.parseInlineL ['[', 'a'] = [.TEXT (MD.asStr ['[', 'a'])] ∧
    MD.parseInlineL ['`', 'a'] = [.CODE (MD.asStr ['a'])] ∧
    MD.parseInlineL ['*', 'a'] = [.EM (MD.parseInlineL ['a'])] ∧
    MD.parseInlineL ['*', '*', 'a'] = [.STRONG (MD.parseInlineL ['a'])] :=
  ⟨c3_unmatched_delimiters.1 ['a'] (by decide),
   c3_unmatched_delimiters.2.1 ['a'] (by decide),
   c3_unmatched_delimiters.2.2.1 ['a'] (by decide),
   c3_unmatched_delimiters.2.2.2.1 ['a'] (by decide)⟩
